import Mathlib

/-!
# Verification of `TaskScheduler.py`

Shallow embedding of the task-tree scheduler:

* Python `int(...)`, `str.split("_")`, `str.split("->")` and `str.strip()`
  are modelled character-faithfully (`pyIntChars`, `splitUnderscore`,
  `splitArrow`, `String.trim`).
* The tree loader `_load_tree` is modelled over a list of input lines;
  Python exceptions (`ValueError` from `int`/unpacking, `IndexError` from
  `list(...)[0]` on an empty list) become an explicit error type.  Python's
  `set` of parent tokens is modelled as an insertion-ordered duplicate-free
  list; only facts independent of set iteration order are proved about the
  root choice.
* The scheduling engine `escalonar` works on an *arena*: the DFS preorder
  collection produced by `coletar_tarefas`, with each task addressed by its
  preorder index.  This models the Python dictionaries keyed by object
  identity `id(t)` (each tree node is a distinct object, discovered exactly
  once by the DFS).  The execution order is accumulated as a list of task
  indices and converted to task names at the end; this is equal to Python's
  list of names because `task_name` is never mutated.
* The main `while` loop is modelled with explicit fuel
  (`tasks + 1` iterations); a separate theorem shows this fuel is
  sufficient for every valid tree, which is the termination statement.
-/

namespace TaskScheduler

/-! ## Python primitives -/

/-- Numeric value of a decimal digit character. -/
def digitVal (c : Char) : Nat := c.toNat - '0'.toNat

/-- Digit run of Python `int`, after the first digit: decimal digits with
single underscores allowed between digits (`int("1_2") == 12`). -/
def pyDigitsAux : Nat → List Char → Option Nat
  | acc, [] => some acc
  | acc, c :: rest =>
    if c.isDigit then pyDigitsAux (acc * 10 + digitVal c) rest
    else if c = '_' then
      match rest with
      | d :: rest2 => if d.isDigit then pyDigitsAux (acc * 10 + digitVal d) rest2 else none
      | [] => none
    else none

/-- Unsigned part of Python `int`: at least one digit, then `pyDigitsAux`. -/
def pyDigitsStart : List Char → Option Nat
  | [] => none
  | c :: rest => if c.isDigit then pyDigitsAux (digitVal c) rest else none

/-- Python `str.strip()` on a character list. -/
def trimChars (l : List Char) : List Char :=
  ((l.dropWhile Char.isWhitespace).reverse.dropWhile Char.isWhitespace).reverse

/-- Model of Python `int(s)`: surrounding whitespace stripped, optional sign,
decimal digits with single underscores allowed between digits.  `none` where
Python raises `ValueError`. -/
def pyIntChars (l : List Char) : Option Int :=
  match trimChars l with
  | '-' :: rest => (pyDigitsStart rest).map (fun n => -(n : Int))
  | '+' :: rest => (pyDigitsStart rest).map (fun n => (n : Int))
  | l2 => (pyDigitsStart l2).map (fun n => (n : Int))

/-- Python `int` on a string. -/
def pyInt (s : String) : Option Int := pyIntChars s.toList

/-- Python `str.strip()` on a string. -/
def pyStrip (s : String) : String := String.mk (trimChars s.toList)

/-- Python `str.upper()` on the ASCII letters that occur here (no character
outside `a`..`z` has `M`, `A` or `X` as its Unicode uppercase form, so the
comparison with `"MAX"` is unaffected by the restriction). -/
def pyUpper (s : String) : String := String.mk (s.toList.map Char.toUpper)

/-- Python `str.split("_")`: split at every underscore, keeping empty
fields. -/
def splitUnderscore : List Char → List (List Char)
  | [] => [[]]
  | c :: rest =>
    match splitUnderscore rest with
    | [] => [[]]
    | s :: ss => if c = '_' then [] :: s :: ss else (c :: s) :: ss

/-- Inverse of `splitUnderscore`: joins the fields back with underscores
(specification-side, used to state what the split computes). -/
def unsplitUnder : List (List Char) → List Char
  | [] => []
  | [p] => p
  | p :: ps => p ++ '_' :: unsplitUnder ps

/-- Python `str.split("->")`: split at every non-overlapping occurrence of
the two-character separator, scanning left to right. -/
def splitArrow : List Char → List (List Char)
  | [] => [[]]
  | '-' :: '>' :: rest => [] :: splitArrow rest
  | c :: rest =>
    match splitArrow rest with
    | [] => [[]]
    | s :: ss => (c :: s) :: ss

/-! ## `parse_task` -/

/-- `TaskScheduler.parse_task`: `nome, tempo = raw.split("_")` followed by
`int(tempo)`.  The unpacking demands exactly two fields; `none` models the
`ValueError` raised otherwise or by `int`. -/
def parse_task (raw : String) : Option (String × Int) :=
  match splitUnderscore raw.toList with
  | [nome, tempo] =>
    match pyIntChars tempo with
    | some v => some (String.mk nome, v)
    | none => none
  | _ => none

/-! ## The tree loader `_load_tree` -/

/-- Python exceptions observable from `_load_tree`.  The source defines no
`MalformedTreeError`; these two are the only failure modes it has. -/
inductive PyError where
  | valueError
  | indexError
deriving Repr, DecidableEq

/-- A task node as built by the loader: parsed name and duration, plus the
`(task_name, task_time)` data of the `Task` objects appended to its
`children` list (that is all `_load_tree` reads back from a child when it
recomputes the token `f"{c.task_name}_{c.task_time}"`). -/
structure LNode where
  task_name : String
  task_time : Int
  children  : List (String × Int)
deriving Repr, DecidableEq, Inhabited

/-- Loader state: the `nodes` dictionary (insertion-ordered, keyed by raw
token), the `pais` set (insertion-ordered duplicate-free list) and the
processor count. -/
structure LoadState where
  nodes : List (String × LNode)
  pais  : List String
  proc  : Int
deriving Repr, DecidableEq

def initialLoadState : LoadState := ⟨[], [], 1⟩

/-- Dictionary lookup `nodes[raw]`. -/
def lookupNode (nodes : List (String × LNode)) (k : String) : Option LNode :=
  (nodes.find? (fun p => p.1 == k)).map Prod.snd

/-- `if raw not in nodes: nodes[raw] = parse_task(raw)`. -/
def ensureNode (nodes : List (String × LNode)) (raw : String) :
    Except PyError (List (String × LNode)) :=
  match lookupNode nodes raw with
  | some _ => .ok nodes
  | none =>
    match parse_task raw with
    | some nt => .ok (nodes ++ [(raw, ⟨nt.1, nt.2, []⟩)])
    | none => .error .valueError

/-- `pai.children.append(filho)`, recorded as the child's name/time pair. -/
def appendChild (nodes : List (String × LNode)) (k : String) (c : String × Int) :
    List (String × LNode) :=
  nodes.map (fun p =>
    if p.1 == k then (p.1, { p.2 with children := p.2.children ++ [c] }) else p)

/-- One line of the loader's `for linha in f` loop: strip the line; a line
containing `#` (anywhere) sets the processor count from `linha[7:]`; else a
line containing `->` is an edge; else the line is ignored. -/
def processLine (st : LoadState) (linha0 : String) : Except PyError LoadState :=
  let linha := pyStrip linha0
  if linha.toList.contains '#' then
    match pyIntChars (linha.toList.drop 7) with
    | some p => .ok { st with proc := p }
    | none => .error .valueError
  else if 2 ≤ (splitArrow linha.toList).length then
    match (splitArrow linha.toList).map (fun l => trimChars l) with
    | [pai0, filho0] =>
      let pai_raw := String.mk pai0
      let filho_raw := String.mk filho0
      match ensureNode st.nodes pai_raw with
      | .error e => .error e
      | .ok nodes1 =>
        match ensureNode nodes1 filho_raw with
        | .error e => .error e
        | .ok nodes2 =>
          let filho := (lookupNode nodes2 filho_raw).getD default
          let nodes3 := appendChild nodes2 pai_raw (filho.task_name, filho.task_time)
          let pais2 := if pai_raw ∈ st.pais then st.pais else st.pais ++ [pai_raw]
          .ok { st with nodes := nodes3, pais := pais2 }
    | _ => .error .valueError
  else .ok st

/-- The token `f"{c.task_name}_{c.task_time}"` rebuilt for a child. -/
def filhoToken (c : String × Int) : String := c.1 ++ "_" ++ toString c.2

/-- The set comprehension `todos_filhos` (as a list with multiplicities;
only membership is used). -/
def todos_filhos (nodes : List (String × LNode)) : List String :=
  (nodes.map (fun p => p.2.children.map filhoToken)).flatten

/-- `TaskScheduler._load_tree` over the list of input lines.  Returns the
chosen root token and the processor count.  `list(pais - todos_filhos)[0]`
raises `IndexError` when the difference is empty and otherwise picks an
arbitrary element of the set; here the first in insertion order. -/
def load_tree (lines : List String) : Except PyError (String × Int) :=
  match lines.foldlM processLine initialLoadState with
  | .error e => .error e
  | .ok st =>
    let tf := todos_filhos st.nodes
    match st.pais.filter (fun p => ! tf.contains p) with
    | [] => .error .indexError
    | r :: _ => .ok (r, st.proc)

/-! ## The scheduling engine `escalonar` -/

/-- The `Task` dataclass, in arena form: `children` holds the preorder
indices of the child tasks (the `parent` back-reference is not used by the
engine and is omitted). -/
structure Task where
  task_name : String
  task_time : Int
  children  : List Nat
deriving Repr, DecidableEq, Inhabited

/-- The DFS preorder collection `coletar_tarefas()`, with tasks addressed
by position.  Index `i` plays the role of Python's `id(t)`. -/
abbrev Arena := List Task

def childrenOf (ts : Arena) (i : Nat) : List Nat := (ts.getD i default).children

def timeOf (ts : Arena) (i : Nat) : Int := (ts.getD i default).task_time

def nameOf (ts : Arena) (i : Nat) : String := (ts.getD i default).task_name

/-- All child indices, in the order the initial dependency count visits
them. -/
def allChildren (ts : Arena) : List Nat := (ts.map Task.children).flatten

/-- Ephemeral state of one `escalonar()` run. -/
structure SchedState where
  dependencias   : List Int
  prontos        : List Nat
  executando     : List (Nat × Int)
  ordem_execucao : List Nat
  tempo_total    : Int
deriving Repr, DecidableEq

/-- `reverse=(self.politica.upper() == "MAX")`. -/
def reverseFlag (politica : String) : Bool := pyUpper politica == "MAX"

/-- Comparator fed to the stable sort: ascending `task_time`, or descending
when the reverse flag is set. -/
def leKey (ts : Arena) (rev : Bool) (a b : Nat) : Bool :=
  if rev then decide (timeOf ts b ≤ timeOf ts a) else decide (timeOf ts a ≤ timeOf ts b)

/-- Insert into a sorted list, before the first element the new element may
precede; keeps ties in encounter order. -/
def insertSorted (le : Nat → Nat → Bool) (x : Nat) : List Nat → List Nat
  | [] => [x]
  | y :: ys => if le x y then x :: y :: ys else y :: insertSorted le x ys

/-- Stable insertion sort.  Python's `list.sort` is stable, and a stable
sort's output is uniquely determined (key order, ties in original order),
so this models `prontos.sort(...)` exactly. -/
def stableSort (le : Nat → Nat → Bool) : List Nat → List Nat
  | [] => []
  | x :: xs => insertSorted le x (stableSort le xs)

/-- `prontos.sort(key=lambda t: t.task_time, reverse=...)`. -/
def sortProntos (ts : Arena) (politica : String) (l : List Nat) : List Nat :=
  stableSort (leKey ts (reverseFlag politica)) l

/-- The admission loop: `while len(executando) < self.num_proc and prontos:
tarefa = prontos.pop(0); executando.append(...)`. -/
def aloca (ts : Arena) (num_proc : Nat) (prontos : List Nat)
    (executando : List (Nat × Int)) : List Nat × List (Nat × Int) :=
  if executando.length < num_proc then
    match prontos with
    | [] => ([], executando)
    | t :: rest => aloca ts num_proc rest (executando ++ [(t, timeOf ts t)])
  else (prontos, executando)
termination_by structural prontos

/-- `min(t["restante"] for t in executando)` (0 on the empty list, which the
loop never queries). -/
def minRestante (executando : List (Nat × Int)) : Int :=
  match executando with
  | [] => 0
  | q :: rest => rest.foldl (fun m r => min m r.2) q.2

/-- Inner loop of the completion phase: decrement each child's dependency
count and append it to `prontos` when the count reaches zero. -/
def liberaFilhos : List Int → List Nat → List Nat → List Int × List Nat
  | dependencias, prontos, [] => (dependencias, prontos)
  | dependencias, prontos, c :: rest =>
    let deps2 := dependencias.set c (dependencias.getD c 0 - 1)
    let prontos2 := if deps2.getD c 0 = 0 then prontos ++ [c] else prontos
    liberaFilhos deps2 prontos2 rest

/-- `for item in concluidas:` append the task to the execution order, then
release its children. -/
def processaConcluidas (ts : Arena) :
    List (Nat × Int) → List Int → List Nat → List Nat →
      List Int × List Nat × List Nat
  | [], dependencias, prontos, ordem => (dependencias, prontos, ordem)
  | item :: rest, dependencias, prontos, ordem =>
    let r := liberaFilhos dependencias prontos (childrenOf ts item.1)
    processaConcluidas ts rest r.1 r.2 (ordem ++ [item.1])

/-- One iteration of `while prontos or executando`, returning either the
result (loop finished or the `if not executando: break` fired) or the next
state. -/
def iterStep (ts : Arena) (politica : String) (num_proc : Nat) (st : SchedState) :
    (Int × List Nat) ⊕ SchedState :=
  if st.prontos.isEmpty ∧ st.executando.isEmpty then
    .inl (st.tempo_total, st.ordem_execucao)
  else
    let p1 := sortProntos ts politica st.prontos
    let pe := aloca ts num_proc p1 st.executando
    if pe.2.isEmpty then .inl (st.tempo_total, st.ordem_execucao)
    else
      let menor := minRestante pe.2
      let e3 := pe.2.map (fun q => (q.1, q.2 - menor))
      let concluidas := e3.filter (fun q => q.2 == 0)
      let e4 := e3.filter (fun q => decide (0 < q.2))
      let r := processaConcluidas ts concluidas st.dependencias pe.1 st.ordem_execucao
      .inr ⟨r.1, r.2.1, e4, r.2.2, st.tempo_total + menor⟩

/-- The main loop, with explicit fuel. -/
def escalonarLoop (ts : Arena) (politica : String) (num_proc : Nat) :
    Nat → SchedState → Option (Int × List Nat)
  | 0, _ => none
  | fuel + 1, st =>
    match iterStep ts politica num_proc st with
    | .inl r => some r
    | .inr st2 => escalonarLoop ts politica num_proc fuel st2

/-- Initial dependency counts: `+1` for every occurrence as a child. -/
def initDeps (ts : Arena) : List Int :=
  (allChildren ts).foldl (fun deps c => deps.set c (deps.getD c 0 + 1))
    (List.replicate ts.length 0)

/-- `prontos = [t for t in todas_tarefas.values() if dependencias[id(t)] == 0]`
(dictionary order is DFS preorder, i.e. increasing index). -/
def initProntos (ts : Arena) (deps : List Int) : List Nat :=
  (List.range ts.length).filter (fun i => deps.getD i 0 == 0)

/-- `TaskScheduler.escalonar`: returns the total time and the execution
order as task names.  Fuel `tasks + 1` is shown sufficient for every valid
tree; `none` models non-termination of the Python loop. -/
def escalonar (ts : Arena) (num_proc : Nat) (politica : String) :
    Option (Int × List String) :=
  let deps := initDeps ts
  let st : SchedState := ⟨deps, initProntos ts deps, [], [], 0⟩
  (escalonarLoop ts politica num_proc (ts.length + 1) st).map
    (fun r => (r.1, r.2.map (fun i => nameOf ts i)))

/-! ## The scheduler object and `compara_politicas` -/

/-- Observable fields of a `TaskScheduler` object. -/
structure Scheduler where
  file_path : String
  raiz      : Arena
  num_proc  : Nat
  politica  : String
deriving Repr, DecidableEq

/-- `__init__` leaves a freshly constructed scheduler with
`politica = "MAX"`. -/
def mkScheduler (file_path : String) (raiz : Arena) (num_proc : Nat) : Scheduler :=
  ⟨file_path, raiz, num_proc, "MAX"⟩

/-- The report dictionary built by `compara_politicas`.  The two ratio
fields are kept as exact rationals; Python rounds them to two decimals for
display, a pure function of these exact values. -/
structure Info where
  file : String
  proc : Nat
  quantidade_tarefas : Nat
  melhor_politica : String
  politica_max : Int
  politica_min : Int
  soma_total_tempos : Int
  proporcao_proc_tarefas : Rat
  media_tempo_por_tarefa : Rat
deriving Repr, DecidableEq

/-- `TaskScheduler.compara_politicas`: sets `self.politica = 'MIN'`, runs
`escalonar`, sets `self.politica = 'MAX'`, runs it again, and assembles the
report.  Returns the post-call scheduler state together with the report;
`none` models a non-terminating `escalonar` (no observable post-state). -/
def compara_politicas (s : Scheduler) : Option (Scheduler × Info) :=
  match escalonar s.raiz s.num_proc "MIN", escalonar s.raiz s.num_proc "MAX" with
  | some minR, some maxR =>
    let qtd := s.raiz.length
    let soma_tempos := (s.raiz.map Task.task_time).sum
    let media : Rat := if qtd = 0 then 0 else (soma_tempos : Rat) / (qtd : Rat)
    let proc_tarefas : Rat := (qtd : Rat) / (s.num_proc : Rat)
    let melhor := if minR.1 = maxR.1 then "IGUAIS"
      else if maxR.1 < minR.1 then "MAX" else "MIN"
    some ({ s with politica := "MAX" },
      { file := s.file_path, proc := s.num_proc, quantidade_tarefas := qtd,
        melhor_politica := melhor, politica_max := maxR.1, politica_min := minR.1,
        soma_total_tempos := soma_tempos, proporcao_proc_tarefas := proc_tarefas,
        media_tempo_por_tarefa := media })
  | _, _ => none

/-! ## Specification-side definitions -/

/-- Indices of the tasks currently in the running collection. -/
def runIds (e : List (Nat × Int)) : List Nat := e.map Prod.fst

/-- `j` is a child of node `i` in the arena. -/
def HasParent (ts : Arena) (i j : Nat) : Prop := j ∈ childrenOf ts i

/-- A valid finite rooted out-tree in DFS-preorder arena form: every child
index is larger than its parent's index and in range, no index is a child
twice (single parent, no sharing), and every index except the root 0 is
some node's child.  The DFS preorder flattening of any finite out-tree has
exactly this shape. -/
structure ValidArena (ts : Arena) : Prop where
  child_gt : ∀ i j, HasParent ts i j → i < j
  child_lt : ∀ i j, HasParent ts i j → j < ts.length
  children_nodup : (allChildren ts).Nodup
  cover : ∀ j, 0 < j → j < ts.length → ∃ i, HasParent ts i j

/-- Executable check equivalent to `ValidArena` on its bounded part. -/
def validArenaCheck (ts : Arena) : Bool :=
  ((List.range ts.length).all fun i =>
      (childrenOf ts i).all fun j => decide (i < j) && decide (j < ts.length)) &&
    (allChildren ts).Nodup &&
    ((List.range ts.length).all fun j => j == 0 || (allChildren ts).contains j)

/-- Invariant of the scheduling loop, stated for a decomposition of the
task indices into the ready list, the indices of the running collection,
and the completed order. -/
structure Inv (ts : Arena) (deps : List Int) (prontos running ordem : List Nat) : Prop where
  deps_len : deps.length = ts.length
  lt_n : ∀ j ∈ prontos ++ running ++ ordem, j < ts.length
  nodup : (prontos ++ running ++ ordem).Nodup
  deps_parent : ∀ i j, HasParent ts i j → deps.getD j 0 = if i ∈ ordem then 0 else 1
  deps_root : 0 < ts.length → deps.getD 0 0 = 0
  released_iff : ∀ j, j < ts.length →
    ((j ∈ prontos ∨ j ∈ running ∨ j ∈ ordem) ↔
      (j = 0 ∨ ∃ i, HasParent ts i j ∧ i ∈ ordem))
  parent_before : ∀ i j, HasParent ts i j → j ∈ ordem →
    ∃ o1 o2, ordem = o1 ++ j :: o2 ∧ i ∈ o1

/-- Total duration of the listed tasks. -/
def sumTimes (ts : Arena) (o : List Nat) : Int := (o.map (timeOf ts)).sum

/-- Case-insensitive equality with the three-letter word `MAX`, spelled out
as the spec reads it. -/
def matchesMAX (s : String) : Prop :=
  ∃ c1 c2 c3, s.toList = [c1, c2, c3] ∧ (c1 = 'm' ∨ c1 = 'M') ∧
    (c2 = 'a' ∨ c2 = 'A') ∧ (c3 = 'x' ∨ c3 = 'X')

/-- The tree of the spec's worked scenario: `A_5 -> B_3`, `A_5 -> C_2`. -/
def arenaEnunciado : Arena := [⟨"A", 5, [1, 2]⟩, ⟨"B", 3, []⟩, ⟨"C", 2, []⟩]

/-- A one-task tree, used to instantiate universally quantified theorems. -/
def arenaUma : Arena := [⟨"A", 1, []⟩]

/-! ## Generic helper lemmas -/

theorem getD_set_self (l : List Int) (i : Nat) (v : Int) (h : i < l.length) :
    (l.set i v).getD i 0 = v := by
  rw [List.getD_eq_getElem _ _ (by simpa using h)]
  simp [List.getElem_set]

theorem getD_set_other (l : List Int) {i j : Nat} (v : Int) (h : i ≠ j) :
    (l.set i v).getD j 0 = l.getD j 0 := by
  by_cases hj : j < l.length
  · rw [List.getD_eq_getElem _ _ (by simpa using hj), List.getD_eq_getElem _ _ hj]
    simp [List.getElem_set, h]
  · rw [List.getD_eq_default _ _ (by simpa using Nat.le_of_not_lt hj),
      List.getD_eq_default _ _ (Nat.le_of_not_lt hj)]

theorem foldl_min_le_init (l : List (Nat × Int)) : ∀ acc : Int,
    l.foldl (fun m r => min m r.2) acc ≤ acc := by
  induction l with
  | nil => intro acc; simp
  | cons q rest ih =>
    intro acc
    simp only [List.foldl_cons]
    exact le_trans (ih (min acc q.2)) (min_le_left _ _)

theorem foldl_min_le_mem (l : List (Nat × Int)) : ∀ (acc : Int) (q : Nat × Int), q ∈ l →
    l.foldl (fun m r => min m r.2) acc ≤ q.2 := by
  induction l with
  | nil => intro _ q hq; cases hq
  | cons p rest ih =>
    intro acc q hq
    simp only [List.foldl_cons]
    rcases List.mem_cons.mp hq with rfl | hq2
    · exact le_trans (foldl_min_le_init rest _) (min_le_right _ _)
    · exact ih _ q hq2

theorem minRestante_le {e : List (Nat × Int)} {q : Nat × Int} (hq : q ∈ e) :
    minRestante e ≤ q.2 := by
  cases e with
  | nil => cases hq
  | cons x rest =>
    simp only [minRestante]
    rcases List.mem_cons.mp hq with rfl | hq2
    · exact foldl_min_le_init rest _
    · exact foldl_min_le_mem rest _ q hq2

theorem foldl_min_attained (l : List (Nat × Int)) : ∀ acc : Int,
    l.foldl (fun m r => min m r.2) acc = acc ∨
      ∃ q ∈ l, l.foldl (fun m r => min m r.2) acc = q.2 := by
  induction l with
  | nil => intro acc; left; rfl
  | cons p rest ih =>
    intro acc
    simp only [List.foldl_cons]
    rcases ih (min acc p.2) with h | ⟨q, hq, h⟩
    · rcases le_or_lt acc p.2 with h2 | h2
      · left; rw [h, min_eq_left h2]
      · right
        exact ⟨p, List.mem_cons_self _ _, by rw [h, min_eq_right (le_of_lt h2)]⟩
    · right; exact ⟨q, List.mem_cons_of_mem _ hq, h⟩

theorem minRestante_attained {e : List (Nat × Int)} (he : e ≠ []) :
    ∃ q ∈ e, q.2 = minRestante e := by
  cases e with
  | nil => exact absurd rfl he
  | cons x rest =>
    simp only [minRestante]
    rcases foldl_min_attained rest x.2 with h | ⟨q, hq, h⟩
    · exact ⟨x, List.mem_cons_self _ _, h.symm⟩
    · exact ⟨q, List.mem_cons_of_mem _ hq, h.symm⟩

/-! ## The stable sort -/

theorem insertSorted_perm (le : Nat → Nat → Bool) (x : Nat) :
    ∀ l : List Nat, (insertSorted le x l).Perm (x :: l) := by
  intro l
  induction l with
  | nil => exact List.Perm.refl _
  | cons y ys ih =>
    simp only [insertSorted]
    by_cases h : le x y = true
    · rw [if_pos h]
    · rw [if_neg h]
      exact (ih.cons y).trans (List.Perm.swap x y ys)

theorem stableSort_perm (le : Nat → Nat → Bool) :
    ∀ l : List Nat, (stableSort le l).Perm l := by
  intro l
  induction l with
  | nil => exact List.Perm.refl _
  | cons x xs ih =>
    simp only [stableSort]
    exact (insertSorted_perm le x (stableSort le xs)).trans (ih.cons x)

theorem insertSorted_pairwise {le : Nat → Nat → Bool}
    (htrans : ∀ a b c, le a b = true → le b c = true → le a c = true)
    (htotal : ∀ a b, le a b = true ∨ le b a = true) (x : Nat) :
    ∀ l : List Nat, l.Pairwise (fun a b => le a b = true) →
      (insertSorted le x l).Pairwise (fun a b => le a b = true) := by
  intro l
  induction l with
  | nil =>
    intro _
    simp [insertSorted]
  | cons y ys ih =>
    intro hp
    obtain ⟨hy, hys⟩ := List.pairwise_cons.mp hp
    simp only [insertSorted]
    by_cases hxy : le x y = true
    · rw [if_pos hxy]
      refine List.pairwise_cons.mpr ⟨?_, hp⟩
      intro b hb
      rcases List.mem_cons.mp hb with rfl | hb2
      · exact hxy
      · exact htrans x y b hxy (hy b hb2)
    · rw [if_neg hxy]
      have hyx : le y x = true := (htotal x y).resolve_left hxy
      refine List.pairwise_cons.mpr ⟨?_, ih hys⟩
      intro b hb
      rcases List.mem_cons.mp ((insertSorted_perm le x ys).mem_iff.mp hb) with rfl | hb2
      · exact hyx
      · exact hy b hb2

theorem stableSort_pairwise {le : Nat → Nat → Bool}
    (htrans : ∀ a b c, le a b = true → le b c = true → le a c = true)
    (htotal : ∀ a b, le a b = true ∨ le b a = true) :
    ∀ l : List Nat, (stableSort le l).Pairwise (fun a b => le a b = true) := by
  intro l
  induction l with
  | nil => simp [stableSort]
  | cons x xs ih =>
    simp only [stableSort]
    exact insertSorted_pairwise htrans htotal x _ ih

/-! ## Lemmas about the admission loop `aloca` -/

theorem aloca_decomp (ts : Arena) (num_proc : Nat) :
    ∀ (p : List Nat) (e : List (Nat × Int)),
      ∃ taken, p = taken ++ (aloca ts num_proc p e).1 ∧
        (aloca ts num_proc p e).2 = e ++ taken.map (fun t => (t, timeOf ts t)) := by
  intro p
  induction p with
  | nil =>
    intro e
    refine ⟨[], ?_, ?_⟩ <;> rw [aloca] <;> by_cases h : e.length < num_proc <;>
      simp [h]
  | cons t rest ih =>
    intro e
    rw [aloca]
    by_cases h : e.length < num_proc
    · simp only [if_pos h]
      obtain ⟨taken, h1, h2⟩ := ih (e ++ [(t, timeOf ts t)])
      refine ⟨t :: taken, ?_, ?_⟩
      · rw [List.cons_append, ← h1]
      · rw [h2, List.map_cons, List.append_assoc]
        simp
    · simp [if_neg h]

theorem aloca_length (ts : Arena) (num_proc : Nat) :
    ∀ (p : List Nat) (e : List (Nat × Int)), e.length ≤ num_proc →
      (aloca ts num_proc p e).2.length ≤ num_proc := by
  intro p
  induction p with
  | nil =>
    intro e he
    rw [aloca]
    by_cases h : e.length < num_proc <;> simp [h, he]
  | cons t rest ih =>
    intro e he
    rw [aloca]
    by_cases h : e.length < num_proc
    · simp only [if_pos h]
      exact ih _ (by simpa using Nat.succ_le_of_lt h)
    · simp [if_neg h, he]

theorem aloca_nil_of_exec_nil (ts : Arena) {num_proc : Nat} (hnp : 0 < num_proc)
    (p : List Nat) (h : (aloca ts num_proc p []).2 = []) : p = [] := by
  cases p with
  | nil => rfl
  | cons t rest =>
    rw [aloca] at h
    simp only [List.length_nil, if_pos hnp, List.nil_append] at h
    obtain ⟨taken, _, h2⟩ := aloca_decomp ts num_proc rest [(t, timeOf ts t)]
    rw [h2] at h
    simp at h

/-! ## Lemmas about the completion phase -/

theorem processa_ordem (ts : Arena) :
    ∀ (pend : List (Nat × Int)) (deps : List Int) (prontos ordem : List Nat),
      (processaConcluidas ts pend deps prontos ordem).2.2 = ordem ++ runIds pend := by
  intro pend
  induction pend with
  | nil => intro deps prontos ordem; simp [processaConcluidas, runIds]
  | cons item rest ih =>
    intro deps prontos ordem
    simp only [processaConcluidas]
    rw [ih]
    simp [runIds]

/-! ## Facts about valid arenas -/

theorem childrenOf_eq_nil_of_ge (ts : Arena) {i : Nat} (h : ts.length ≤ i) :
    childrenOf ts i = [] := by
  unfold childrenOf
  rw [List.getD_eq_default _ _ h]
  rfl

theorem hasParent_lt_len (ts : Arena) {i j : Nat} (h : HasParent ts i j) :
    i < ts.length := by
  by_contra hi
  rw [HasParent, childrenOf_eq_nil_of_ge ts (Nat.le_of_not_lt hi)] at h
  cases h

theorem mem_allChildren_iff (ts : Arena) (j : Nat) :
    j ∈ allChildren ts ↔ ∃ i, HasParent ts i j := by
  unfold allChildren
  rw [List.mem_flatten]
  constructor
  · rintro ⟨l, hl, hj⟩
    rw [List.mem_map] at hl
    obtain ⟨task, htask, rfl⟩ := hl
    rw [List.mem_iff_getElem] at htask
    obtain ⟨i, hi, rfl⟩ := htask
    refine ⟨i, ?_⟩
    unfold HasParent childrenOf
    rw [List.getD_eq_getElem _ _ hi]
    exact hj
  · rintro ⟨i, hi⟩
    have hlt := hasParent_lt_len ts hi
    unfold HasParent childrenOf at hi
    rw [List.getD_eq_getElem _ _ hlt] at hi
    exact ⟨ts[i].children, List.mem_map.mpr ⟨ts[i], List.getElem_mem hlt, rfl⟩, hi⟩

theorem childrenOf_subset (ts : Arena) (i : Nat) :
    childrenOf ts i ⊆ allChildren ts :=
  fun _ hj => (mem_allChildren_iff ts _).mpr ⟨i, hj⟩

theorem getElem_map_children (ts : Arena) (k : Nat) (hk : k < ts.length)
    (hk2 : k < (ts.map Task.children).length) :
    (ts.map Task.children)[k] = childrenOf ts k := by
  rw [List.getElem_map]
  unfold childrenOf
  rw [List.getD_eq_getElem _ _ hk]

theorem childrenOf_nodup {ts : Arena} (hv : ValidArena ts) (i : Nat) :
    (childrenOf ts i).Nodup := by
  by_cases hi : i < ts.length
  · have h1 := (List.nodup_flatten.mp hv.children_nodup).1
    refine h1 (childrenOf ts i) ?_
    rw [← getElem_map_children ts i hi (by simpa using hi)]
    exact List.getElem_mem _
  · rw [childrenOf_eq_nil_of_ge ts (Nat.le_of_not_lt hi)]
    exact List.nodup_nil

theorem parent_unique {ts : Arena} (hv : ValidArena ts) {i i2 j : Nat}
    (h : HasParent ts i j) (h2 : HasParent ts i2 j) : i = i2 := by
  by_contra hne
  have hd := (List.nodup_flatten.mp hv.children_nodup).2
  have hlt := hasParent_lt_len ts h
  have hlt2 := hasParent_lt_len ts h2
  rw [List.pairwise_iff_getElem] at hd
  rcases Nat.lt_or_ge i i2 with h3 | h3
  · have hdis := hd i i2 (by simpa using hlt) (by simpa using hlt2) h3
    rw [getElem_map_children ts i hlt _, getElem_map_children ts i2 hlt2 _] at hdis
    exact hdis h h2
  · have h4 : i2 < i := Nat.lt_of_le_of_ne h3 (fun h5 => hne h5.symm)
    have hdis := hd i2 i (by simpa using hlt2) (by simpa using hlt) h4
    rw [getElem_map_children ts i2 hlt2 _, getElem_map_children ts i hlt _] at hdis
    exact hdis h2 h

theorem not_hasParent_zero {ts : Arena} (hv : ValidArena ts) (i : Nat) :
    ¬ HasParent ts i 0 :=
  fun h => absurd (hv.child_gt i 0 h) (Nat.not_lt_zero i)

theorem count_allChildren_eq_one {ts : Arena} (hv : ValidArena ts) {j : Nat}
    (h0 : 0 < j) (hn : j < ts.length) : (allChildren ts).count j = 1 :=
  List.count_eq_one_of_mem hv.children_nodup
    ((mem_allChildren_iff ts j).mpr (hv.cover j h0 hn))

theorem count_allChildren_zero {ts : Arena} (hv : ValidArena ts) :
    (allChildren ts).count 0 = 0 :=
  List.count_eq_zero.mpr
    (fun h => by
      obtain ⟨i, hi⟩ := (mem_allChildren_iff ts 0).mp h
      exact not_hasParent_zero hv i hi)

/-! ## The initial state of `escalonar` -/

theorem foldl_incr_length : ∀ (l : List Nat) (arr : List Int),
    (l.foldl (fun deps c => deps.set c (deps.getD c 0 + 1)) arr).length = arr.length := by
  intro l
  induction l with
  | nil => intro arr; rfl
  | cons c rest ih =>
    intro arr
    simp only [List.foldl_cons]
    rw [ih]
    exact List.length_set ..

theorem foldl_incr_getD : ∀ (l : List Nat) (arr : List Int) (j : Nat),
    (∀ c ∈ l, c < arr.length) →
    (l.foldl (fun deps c => deps.set c (deps.getD c 0 + 1)) arr).getD j 0 =
      arr.getD j 0 + l.count j := by
  intro l
  induction l with
  | nil => intro arr j _; simp
  | cons c rest ih =>
    intro arr j hl
    simp only [List.foldl_cons]
    have hc_lt : c < arr.length := hl c (List.mem_cons_self _ _)
    have hrest : ∀ x ∈ rest, x < (arr.set c (arr.getD c 0 + 1)).length := by
      intro x hx
      rw [List.length_set]
      exact hl x (List.mem_cons_of_mem _ hx)
    rw [ih _ j hrest]
    by_cases hc : c = j
    · subst hc
      rw [getD_set_self arr c _ hc_lt, List.count_cons_self]
      push_cast
      ring
    · rw [getD_set_other arr _ hc, List.count_cons_of_ne (fun h => hc h.symm)]

theorem initDeps_length (ts : Arena) : (initDeps ts).length = ts.length := by
  unfold initDeps
  rw [foldl_incr_length]
  exact List.length_replicate ..

theorem initDeps_getD {ts : Arena} (hv : ValidArena ts) {j : Nat} (hj : j < ts.length) :
    (initDeps ts).getD j 0 = (allChildren ts).count j := by
  unfold initDeps
  rw [foldl_incr_getD _ _ _ ?bound]
  case bound =>
    intro c hc
    rw [List.length_replicate]
    obtain ⟨i, hi⟩ := (mem_allChildren_iff ts c).mp hc
    exact hv.child_lt i c hi
  rw [List.getD_eq_getElem _ _ (by simpa using hj), List.getElem_replicate]
  simp

theorem initDeps_root {ts : Arena} (hv : ValidArena ts) (h0 : 0 < ts.length) :
    (initDeps ts).getD 0 0 = 0 := by
  rw [initDeps_getD hv h0, count_allChildren_zero hv]
  rfl

theorem initDeps_nonroot {ts : Arena} (hv : ValidArena ts) {j : Nat}
    (h0 : 0 < j) (hj : j < ts.length) : (initDeps ts).getD j 0 = 1 := by
  rw [initDeps_getD hv hj, count_allChildren_eq_one hv h0 hj]
  rfl

theorem initProntos_eq {ts : Arena} (hv : ValidArena ts) (hn : 0 < ts.length) :
    initProntos ts (initDeps ts) = [0] := by
  obtain ⟨m, hm⟩ : ∃ m, ts.length = m + 1 := ⟨ts.length - 1, by omega⟩
  unfold initProntos
  rw [hm, List.range_succ_eq_map, List.filter_cons]
  have hp0 : ((initDeps ts).getD 0 0 == 0) = true := by
    rw [initDeps_root hv hn]
    rfl
  rw [if_pos (by rw [hp0])]
  have hrest : (List.map Nat.succ (List.range m)).filter
      (fun i => (initDeps ts).getD i 0 == 0) = [] := by
    rw [List.filter_eq_nil_iff]
    intro a ha
    obtain ⟨k, hk, rfl⟩ := List.mem_map.mp ha
    rw [List.mem_range] at hk
    have : (initDeps ts).getD (Nat.succ k) 0 = 1 :=
      initDeps_nonroot hv (Nat.succ_pos k) (by omega)
    rw [this]
    simp
  rw [hrest]

theorem validArenaCheck_sound (ts : Arena) (h : validArenaCheck ts = true) :
    ValidArena ts := by
  unfold validArenaCheck at h
  simp only [Bool.and_eq_true, List.all_eq_true, Bool.or_eq_true, beq_iff_eq,
    decide_eq_true_eq, List.mem_range] at h
  obtain ⟨⟨h1, h2⟩, h3⟩ := h
  refine ⟨?_, ?_, by simpa using h2, ?_⟩
  · intro i j hp
    exact ((h1 i (hasParent_lt_len ts hp)) j hp).1
  · intro i j hp
    exact ((h1 i (hasParent_lt_len ts hp)) j hp).2
  · intro j h0 hn
    rcases h3 j hn with rfl | hmem
    · exact absurd h0 (by omega)
    · exact (mem_allChildren_iff ts j).mp (by simpa using hmem)

/-! ## The loop invariant -/

theorem inv_reshuffle {ts : Arena} {deps : List Int} {p r o p2 r2 : List Nat}
    (hperm : (p ++ r).Perm (p2 ++ r2)) (hInv : Inv ts deps p r o) :
    Inv ts deps p2 r2 o := by
  have hpermAll : (p ++ r ++ o).Perm (p2 ++ r2 ++ o) := hperm.append (List.Perm.refl o)
  refine ⟨hInv.deps_len, ?_, ?_, hInv.deps_parent, hInv.deps_root, ?_, hInv.parent_before⟩
  · intro j hj
    exact hInv.lt_n j (hpermAll.mem_iff.mpr hj)
  · exact hpermAll.nodup_iff.mp hInv.nodup
  · intro j hjn
    have key : (j ∈ p2 ∨ j ∈ r2 ∨ j ∈ o) ↔ (j ∈ p ∨ j ∈ r ∨ j ∈ o) := by
      have hm : j ∈ p2 ++ r2 ↔ j ∈ p ++ r := hperm.symm.mem_iff
      simp only [List.mem_append] at hm
      tauto
    rw [key]
    exact hInv.released_iff j hjn

theorem inv_ordem_length_le {ts : Arena} {deps : List Int} {p r o : List Nat}
    (hInv : Inv ts deps p r o) : o.length ≤ ts.length := by
  have hnodup : o.Nodup := hInv.nodup.of_append_right
  have hsub : o ⊆ List.range ts.length := by
    intro j hj
    rw [List.mem_range]
    exact hInv.lt_n j (by simp [hj])
  simpa using (List.subperm_of_subset hnodup hsub).length_le

theorem inv_initial {ts : Arena} (hv : ValidArena ts) :
    Inv ts (initDeps ts) (initProntos ts (initDeps ts)) [] [] := by
  by_cases hn : 0 < ts.length
  · rw [initProntos_eq hv hn]
    refine ⟨initDeps_length ts, ?_, by simp, ?_, fun _ => initDeps_root hv hn, ?_, ?_⟩
    · intro j hj
      simp at hj
      omega
    · intro i j hp
      rw [if_neg (List.not_mem_nil i)]
      have hj0 : 0 < j :=
        Nat.pos_of_ne_zero (fun h => not_hasParent_zero hv i (h ▸ hp))
      exact initDeps_nonroot hv hj0 (hv.child_lt i j hp)
    · intro j hjn
      constructor
      · rintro (h | h | h)
        · simp at h
          exact Or.inl h
        · cases h
        · cases h
      · rintro (rfl | ⟨i, _, hi⟩)
        · exact Or.inl (by simp)
        · cases hi
    · intro i j _ hj
      cases hj
  · have hlen : ts.length = 0 := by omega
    have hinit : initProntos ts (initDeps ts) = [] := by
      unfold initProntos
      rw [hlen]
      rfl
    rw [hinit]
    refine ⟨initDeps_length ts, ?_, by simp, ?_, fun h => absurd h hn, ?_, ?_⟩
    · intro j hj
      simp at hj
    · intro i j hp
      exact absurd (hv.child_lt i j hp) (by omega)
    · intro j hjn
      exact absurd hjn (by omega)
    · intro i j hp _
      exact absurd (hv.child_lt i j hp) (by omega)

theorem liberaFilhos_spec :
    ∀ (cs : List Nat) (deps : List Int) (prontos : List Nat),
      cs.Nodup → (∀ c ∈ cs, c < deps.length ∧ deps.getD c 0 = 1) →
      (liberaFilhos deps prontos cs).1.length = deps.length ∧
      (liberaFilhos deps prontos cs).2 = prontos ++ cs ∧
      (∀ c ∈ cs, (liberaFilhos deps prontos cs).1.getD c 0 = 0) ∧
      (∀ x, x ∉ cs → (liberaFilhos deps prontos cs).1.getD x 0 = deps.getD x 0) := by
  intro cs
  induction cs with
  | nil =>
    intro deps prontos _ _
    exact ⟨rfl, by simp [liberaFilhos], by simp, fun x _ => rfl⟩
  | cons c rest ih =>
    intro deps prontos hnd hcs
    obtain ⟨hc_lt, hc_val⟩ := hcs c (List.mem_cons_self _ _)
    have hc_zero : (deps.set c (deps.getD c 0 - 1)).getD c 0 = 0 := by
      rw [getD_set_self deps c _ hc_lt, hc_val]
      norm_num
    have hstep : liberaFilhos deps prontos (c :: rest) =
        liberaFilhos (deps.set c (deps.getD c 0 - 1)) (prontos ++ [c]) rest := by
      simp only [liberaFilhos]
      rw [if_pos hc_zero]
    rw [hstep]
    have hnotmem : c ∉ rest := (List.nodup_cons.mp hnd).1
    have hrest_h : ∀ x ∈ rest, x < (deps.set c (deps.getD c 0 - 1)).length ∧
        (deps.set c (deps.getD c 0 - 1)).getD x 0 = 1 := by
      intro x hx
      have hxc : c ≠ x := fun h => hnotmem (h ▸ hx)
      obtain ⟨h1, h2⟩ := hcs x (List.mem_cons_of_mem _ hx)
      exact ⟨by simpa using h1, by rw [getD_set_other deps _ hxc]; exact h2⟩
    obtain ⟨ih1, ih2, ih3, ih4⟩ := ih _ _ (List.nodup_cons.mp hnd).2 hrest_h
    refine ⟨?_, ?_, ?_, ?_⟩
    · rw [ih1, List.length_set]
    · rw [ih2, List.append_assoc]
      rfl
    · intro x hx
      rcases List.mem_cons.mp hx with rfl | hx2
      · rw [ih4 x hnotmem]
        exact hc_zero
      · exact ih3 x hx2
    · intro x hx
      have hxrest : x ∉ rest := fun h => hx (List.mem_cons_of_mem _ h)
      have hxc : c ≠ x := fun h => hx (h ▸ List.mem_cons_self _ _)
      rw [ih4 x hxrest, getD_set_other deps _ hxc]

theorem processa_inv {ts : Arena} (hv : ValidArena ts) :
    ∀ (pend : List (Nat × Int)) (deps : List Int) (prontos ordem rest : List Nat),
      Inv ts deps prontos (runIds pend ++ rest) ordem →
      Inv ts (processaConcluidas ts pend deps prontos ordem).1
        (processaConcluidas ts pend deps prontos ordem).2.1 rest
        (processaConcluidas ts pend deps prontos ordem).2.2 := by
  intro pend
  induction pend with
  | nil =>
    intro deps prontos ordem rest hInv
    simpa [processaConcluidas, runIds] using hInv
  | cons item pend2 ih =>
    intro deps prontos ordem rest hInv
    simp only [processaConcluidas]
    have hrun_shape : runIds (item :: pend2) = item.1 :: runIds pend2 := rfl
    have hj_lt : item.1 < ts.length := by
      apply hInv.lt_n
      rw [hrun_shape]
      simp
    have hd1 := List.disjoint_of_nodup_append hInv.nodup
    have hd2 := List.disjoint_of_nodup_append hInv.nodup.of_append_left
    have hj_not_ordem : item.1 ∉ ordem := fun h =>
      hd1 (by rw [hrun_shape]; simp) h
    have hj_not_prontos : item.1 ∉ prontos := fun h =>
      hd2 h (by rw [hrun_shape]; simp)
    have hcs_nodup : (childrenOf ts item.1).Nodup := childrenOf_nodup hv _
    have hc_parent : ∀ c ∈ childrenOf ts item.1, HasParent ts item.1 c := fun c hc => hc
    have hc_lt : ∀ c ∈ childrenOf ts item.1, c < ts.length := fun c hc =>
      hv.child_lt _ _ (hc_parent c hc)
    have hc_gt : ∀ c ∈ childrenOf ts item.1, item.1 < c := fun c hc =>
      hv.child_gt _ _ (hc_parent c hc)
    have hdeps_c : ∀ c ∈ childrenOf ts item.1, deps.getD c 0 = 1 := by
      intro c hc
      rw [hInv.deps_parent _ _ (hc_parent c hc), if_neg hj_not_ordem]
    have hc_unreleased : ∀ c ∈ childrenOf ts item.1,
        ¬(c ∈ prontos ∨ c ∈ runIds (item :: pend2) ++ rest ∨ c ∈ ordem) := by
      intro c hc h
      rcases (hInv.released_iff c (hc_lt c hc)).mp h with rfl | ⟨i, hpi, hio⟩
      · exact absurd (hc_gt _ hc) (by omega)
      · rw [parent_unique hv hpi (hc_parent c hc)] at hio
        exact hj_not_ordem hio
    obtain ⟨hlen2, hpr2, hzero2, hsame2⟩ :=
      liberaFilhos_spec (childrenOf ts item.1) deps prontos hcs_nodup
        (fun c hc => ⟨by rw [hInv.deps_len]; exact hc_lt c hc, hdeps_c c hc⟩)
    have hmem_old : ∀ x : Nat,
        (x ∈ prontos ∨ x = item.1 ∨ x ∈ runIds pend2 ∨ x ∈ rest ∨ x ∈ ordem) ↔
          x ∈ prontos ++ (runIds (item :: pend2) ++ rest) ++ ordem := by
      intro x
      rw [hrun_shape]
      simp only [List.mem_append, List.mem_cons]
      tauto
    have hnew : Inv ts (liberaFilhos deps prontos (childrenOf ts item.1)).1
        (prontos ++ childrenOf ts item.1) (runIds pend2 ++ rest)
        (ordem ++ [item.1]) := by
      refine ⟨?_, ?_, ?_, ?_, ?_, ?_, ?_⟩
      · rw [hlen2, hInv.deps_len]
      · intro x hx
        by_cases hxcs : x ∈ childrenOf ts item.1
        · exact hc_lt x hxcs
        · apply hInv.lt_n x
          rw [← hmem_old x]
          simp only [List.mem_append, List.mem_singleton] at hx
          tauto
      · have hperm_new :
            ((prontos ++ childrenOf ts item.1) ++ (runIds pend2 ++ rest) ++
                (ordem ++ [item.1])).Perm
              (childrenOf ts item.1 ++
                (prontos ++ (runIds (item :: pend2) ++ rest) ++ ordem)) := by
          rw [List.perm_iff_count]
          intro a
          rw [hrun_shape]
          by_cases hja : item.1 = a
          · subst hja
            simp only [List.count_append, List.count_cons, List.count_nil,
              beq_self_eq_true, if_true]
            omega
          · simp only [List.count_append, List.count_cons, List.count_nil,
              beq_iff_eq, hja, if_false]
            omega
        rw [hperm_new.nodup_iff, List.nodup_append]
        refine ⟨hcs_nodup, hInv.nodup, ?_⟩
        intro a ha ha2
        have hnr := hc_unreleased a ha
        rw [← hmem_old a] at ha2
        rcases ha2 with h | h | h | h | h
        · exact hnr (Or.inl h)
        · exact absurd (hc_gt _ ha) (by omega)
        · exact hnr (Or.inr (Or.inl (by rw [hrun_shape]; simp [h])))
        · exact hnr (Or.inr (Or.inl (by rw [hrun_shape]; simp [h])))
        · exact hnr (Or.inr (Or.inr h))
      · intro i x hp
        by_cases hxcs : x ∈ childrenOf ts item.1
        · rw [parent_unique hv hp (hc_parent x hxcs)]
          rw [hzero2 x hxcs, if_pos (by simp)]
        · have hii : i ≠ item.1 := fun h => hxcs (h ▸ hp)
          rw [hsame2 x hxcs, hInv.deps_parent i x hp]
          simp [List.mem_append, List.mem_singleton, hii]
      · intro hn
        have h0cs : 0 ∉ childrenOf ts item.1 := fun h =>
          not_hasParent_zero hv item.1 h
        rw [hsame2 0 h0cs]
        exact hInv.deps_root hn
      · intro x hxn
        have hold2 : (x ∈ prontos ∨ x = item.1 ∨ x ∈ runIds pend2 ∨
            x ∈ rest ∨ x ∈ ordem) ↔
            (x = 0 ∨ ∃ i, HasParent ts i x ∧ i ∈ ordem) := by
          constructor
          · intro h
            apply (hInv.released_iff x hxn).mp
            have h2 := (hmem_old x).mp h
            simp only [List.mem_append] at h2 ⊢
            tauto
          · intro h
            have h2 := (hInv.released_iff x hxn).mpr h
            apply (hmem_old x).mpr
            simp only [List.mem_append] at h2 ⊢
            tauto
        have hsplit : (∃ i, HasParent ts i x ∧ (i ∈ ordem ∨ i = item.1)) ↔
            ((∃ i, HasParent ts i x ∧ i ∈ ordem) ∨ x ∈ childrenOf ts item.1) := by
          constructor
          · rintro ⟨i, hpi, hio | rfl⟩
            · exact Or.inl ⟨i, hpi, hio⟩
            · exact Or.inr hpi
          · rintro (⟨i, hpi, hio⟩ | hx2)
            · exact ⟨i, hpi, Or.inl hio⟩
            · exact ⟨item.1, hx2, Or.inr rfl⟩
        simp only [List.mem_append, List.mem_singleton]
        rw [hsplit]
        constructor
        · intro hx
          rcases hx with (h | h) | (h | h) | (h | h)
          · rcases hold2.mp (Or.inl h) with h0 | hex
            · exact Or.inl h0
            · exact Or.inr (Or.inl hex)
          · exact Or.inr (Or.inr h)
          · rcases hold2.mp (Or.inr (Or.inr (Or.inl h))) with h0 | hex
            · exact Or.inl h0
            · exact Or.inr (Or.inl hex)
          · rcases hold2.mp (Or.inr (Or.inr (Or.inr (Or.inl h)))) with h0 | hex
            · exact Or.inl h0
            · exact Or.inr (Or.inl hex)
          · rcases hold2.mp (Or.inr (Or.inr (Or.inr (Or.inr h)))) with h0 | hex
            · exact Or.inl h0
            · exact Or.inr (Or.inl hex)
          · rcases hold2.mp (Or.inr (Or.inl h)) with h0 | hex
            · exact Or.inl h0
            · exact Or.inr (Or.inl hex)
        · intro hx
          have hback : x ∈ prontos ∨ x = item.1 ∨ x ∈ runIds pend2 ∨
              x ∈ rest ∨ x ∈ ordem →
              (x ∈ prontos ∨ x ∈ childrenOf ts item.1) ∨
                (x ∈ runIds pend2 ∨ x ∈ rest) ∨ (x ∈ ordem ∨ x = item.1) := by
            rintro (h | h | h | h | h)
            · exact Or.inl (Or.inl h)
            · exact Or.inr (Or.inr (Or.inr h))
            · exact Or.inr (Or.inl (Or.inl h))
            · exact Or.inr (Or.inl (Or.inr h))
            · exact Or.inr (Or.inr (Or.inl h))
          rcases hx with h0 | hex | hxcs
          · exact hback (hold2.mpr (Or.inl h0))
          · exact hback (hold2.mpr (Or.inr hex))
          · exact Or.inl (Or.inr hxcs)
      · intro i x hpi hxmem
        rcases List.mem_append.mp hxmem with hxo | hxj
        · obtain ⟨o1, o2, ho, hio1⟩ := hInv.parent_before i x hpi hxo
          refine ⟨o1, o2 ++ [item.1], ?_, hio1⟩
          rw [ho]
          simp
        · have hxj2 : x = item.1 := by simpa using hxj
          subst hxj2
          have hrel := (hInv.released_iff item.1 hj_lt).mp
            (Or.inr (Or.inl (by rw [hrun_shape]; simp)))
          rcases hrel with hx0 | ⟨i2, hpi2, hio2⟩
          · rw [hx0] at hpi
            exact absurd (hv.child_gt i 0 hpi) (by omega)
          · rw [parent_unique hv hpi2 hpi] at hio2
            exact ⟨ordem, [], rfl, hio2⟩
    have hresult := ih (liberaFilhos deps prontos (childrenOf ts item.1)).1
      (liberaFilhos deps prontos (childrenOf ts item.1)).2 (ordem ++ [item.1]) rest
      (by rw [hpr2]; exact hnew)
    exact hresult

/-! ## One iteration of the main loop -/

theorem runIds_append (a b : List (Nat × Int)) :
    runIds (a ++ b) = runIds a ++ runIds b := by
  simp [runIds]

theorem runIds_map_pair (l : List Nat) (f : Nat → Int) :
    runIds (l.map fun t => (t, f t)) = l := by
  simp [runIds, List.map_map]
  exact List.map_id l

theorem runIds_map_adjust (e : List (Nat × Int)) (m : Int) :
    runIds (e.map fun q => (q.1, q.2 - m)) = runIds e := by
  simp [runIds, List.map_map]

theorem perm_rotate3 (a b c : List Nat) : (a ++ b ++ c).Perm (b ++ (c ++ a)) := by
  rw [List.perm_iff_count]
  intro x
  simp only [List.count_append]
  omega

theorem partition_perm (e : List (Nat × Int)) (hpos : ∀ q ∈ e, 0 ≤ q.2) :
    (e.filter (fun q => q.2 == 0) ++ e.filter (fun q => decide (0 < q.2))).Perm e := by
  have hcongr : e.filter (fun q => !(q.2 == 0)) = e.filter (fun q => decide (0 < q.2)) := by
    apply List.filter_congr
    intro q hq
    have := hpos q hq
    by_cases h : q.2 = 0
    · simp [h]
    · have h2 : 0 < q.2 := by omega
      simp [h, h2]
  rw [← hcongr]
  exact List.filter_append_perm _ e

theorem iterStep_inl {ts : Arena} {politica : String} {np : Nat} {st : SchedState}
    {r : Int × List Nat} (h : iterStep ts politica np st = .inl r) :
    r = (st.tempo_total, st.ordem_execucao) ∧
      (0 < np → st.prontos = [] ∧ st.executando = []) := by
  simp only [iterStep] at h
  split at h
  · injection h with h2
    rename_i h1
    refine ⟨h2.symm, fun _ => ⟨List.isEmpty_iff.mp h1.1, List.isEmpty_iff.mp h1.2⟩⟩
  · split at h
    · injection h with h2
      rename_i h1 hemp
      refine ⟨h2.symm, fun hnp => ?_⟩
      have he2 : (aloca ts np (sortProntos ts politica st.prontos) st.executando).2 = [] :=
        List.isEmpty_iff.mp hemp
      obtain ⟨taken, ht1, ht2⟩ :=
        aloca_decomp ts np (sortProntos ts politica st.prontos) st.executando
      rw [ht2] at he2
      have hexec : st.executando = [] := (List.append_eq_nil.mp he2).1
      rw [hexec] at he2
      rw [hexec] at ht2
      have hsortnil : sortProntos ts politica st.prontos = [] := by
        apply aloca_nil_of_exec_nil ts hnp
        rw [ht2]
        simpa using he2
      have hperm := stableSort_perm (leKey ts (reverseFlag politica)) st.prontos
      rw [sortProntos] at hsortnil
      rw [hsortnil] at hperm
      exact ⟨(List.perm_nil.mp hperm.symm).symm ▸ rfl, hexec⟩
    · exact Sum.noConfusion h

theorem iterStep_inr_inv {ts : Arena} {politica : String} {np : Nat}
    {st st2 : SchedState} (hv : ValidArena ts)
    (hInv : Inv ts st.dependencias st.prontos (runIds st.executando) st.ordem_execucao)
    (h : iterStep ts politica np st = .inr st2) :
    Inv ts st2.dependencias st2.prontos (runIds st2.executando) st2.ordem_execucao ∧
      st.ordem_execucao.length < st2.ordem_execucao.length := by
  simp only [iterStep] at h
  split at h
  · exact Sum.noConfusion h
  · split at h
    · exact Sum.noConfusion h
    · injection h with h2
      subst h2
      rename_i h1 hemp
      have hne : (aloca ts np (sortProntos ts politica st.prontos) st.executando).2 ≠ [] :=
        fun hh => hemp (List.isEmpty_iff.mpr hh)
      obtain ⟨taken, ht1, ht2⟩ :=
        aloca_decomp ts np (sortProntos ts politica st.prontos) st.executando
      have hperm1 : (st.prontos ++ runIds st.executando).Perm
          (sortProntos ts politica st.prontos ++ runIds st.executando) :=
        ((stableSort_perm (leKey ts (reverseFlag politica)) st.prontos).symm).append
          (List.Perm.refl _)
      have hInv1 : Inv ts st.dependencias (sortProntos ts politica st.prontos)
          (runIds st.executando) st.ordem_execucao := inv_reshuffle hperm1 hInv
      have hruntaken :
          runIds (aloca ts np (sortProntos ts politica st.prontos) st.executando).2 =
            runIds st.executando ++ taken := by
        rw [ht2, runIds_append, runIds_map_pair]
      have hperm2 : (sortProntos ts politica st.prontos ++ runIds st.executando).Perm
          ((aloca ts np (sortProntos ts politica st.prontos) st.executando).1 ++
            runIds (aloca ts np (sortProntos ts politica st.prontos) st.executando).2) := by
        rw [hruntaken]
        nth_rewrite 1 [ht1]
        exact perm_rotate3 taken _ (runIds st.executando)
      have hInv2 : Inv ts st.dependencias
          (aloca ts np (sortProntos ts politica st.prontos) st.executando).1
          (runIds (aloca ts np (sortProntos ts politica st.prontos) st.executando).2)
          st.ordem_execucao := inv_reshuffle hperm2 hInv1
      have hpos : ∀ q ∈ (aloca ts np (sortProntos ts politica st.prontos)
            st.executando).2.map (fun q => (q.1, q.2 - minRestante
              (aloca ts np (sortProntos ts politica st.prontos) st.executando).2)),
          0 ≤ q.2 := by
        intro q hq
        obtain ⟨q0, hq0, rfl⟩ := List.mem_map.mp hq
        have := minRestante_le hq0
        simp only []
        omega
      have hpartition := partition_perm _ hpos
      have hrun3 : runIds ((aloca ts np (sortProntos ts politica st.prontos)
            st.executando).2.map (fun q => (q.1, q.2 - minRestante
              (aloca ts np (sortProntos ts politica st.prontos) st.executando).2))) =
          runIds (aloca ts np (sortProntos ts politica st.prontos) st.executando).2 :=
        runIds_map_adjust _ _
      have h4 := hpartition.map Prod.fst
      rw [List.map_append] at h4
      have hperm3 : ((aloca ts np (sortProntos ts politica st.prontos) st.executando).1 ++
          runIds (aloca ts np (sortProntos ts politica st.prontos) st.executando).2).Perm
          ((aloca ts np (sortProntos ts politica st.prontos) st.executando).1 ++
            (runIds (((aloca ts np (sortProntos ts politica st.prontos)
                st.executando).2.map (fun q => (q.1, q.2 - minRestante
                  (aloca ts np (sortProntos ts politica st.prontos)
                    st.executando).2))).filter (fun q => q.2 == 0)) ++
              runIds (((aloca ts np (sortProntos ts politica st.prontos)
                st.executando).2.map (fun q => (q.1, q.2 - minRestante
                  (aloca ts np (sortProntos ts politica st.prontos)
                    st.executando).2))).filter (fun q => decide (0 < q.2))))) := by
        apply List.Perm.append (List.Perm.refl _)
        rw [← hrun3]
        exact h4.symm
      have hInv3 := inv_reshuffle hperm3 hInv2
      have hmain := processa_inv hv _ st.dependencias _ st.ordem_execucao _ hInv3
      refine ⟨hmain, ?_⟩
      rw [processa_ordem]
      obtain ⟨q, hq, hqmin⟩ := minRestante_attained hne
      have hmem0 : (q.1, q.2 - minRestante (aloca ts np (sortProntos ts politica
            st.prontos) st.executando).2) ∈
          (aloca ts np (sortProntos ts politica st.prontos) st.executando).2.map
            (fun q => (q.1, q.2 - minRestante (aloca ts np (sortProntos ts politica
              st.prontos) st.executando).2)) := List.mem_map_of_mem _ hq
      have hfiltmem : (q.1, q.2 - minRestante (aloca ts np (sortProntos ts politica
            st.prontos) st.executando).2) ∈
          ((aloca ts np (sortProntos ts politica st.prontos) st.executando).2.map
            (fun q => (q.1, q.2 - minRestante (aloca ts np (sortProntos ts politica
              st.prontos) st.executando).2))).filter (fun q => q.2 == 0) := by
        refine List.mem_filter.mpr ⟨hmem0, ?_⟩
        simp [hqmin]
      have hlen_pos : 0 < (runIds (((aloca ts np (sortProntos ts politica st.prontos)
            st.executando).2.map (fun q => (q.1, q.2 - minRestante
              (aloca ts np (sortProntos ts politica st.prontos)
                st.executando).2))).filter (fun q => q.2 == 0))).length := by
        rw [runIds, List.length_map]
        exact List.length_pos.mpr (List.ne_nil_of_mem hfiltmem)
      rw [List.length_append]
      omega

/-! ## Termination and completeness of the main loop -/

theorem inv_complete {ts : Arena} {deps : List Int} {prontos ordem : List Nat}
    {exec : List (Nat × Int)} (hv : ValidArena ts)
    (hInv : Inv ts deps prontos (runIds exec) ordem)
    (hp : prontos = []) (he : exec = []) :
    ∀ j, j ∈ ordem ↔ j < ts.length := by
  have hcomplete : ∀ j, j < ts.length → j ∈ ordem := by
    intro j
    induction j using Nat.strong_induction_on with
    | _ j ihj =>
      intro hj
      have hrhs : j = 0 ∨ ∃ i, HasParent ts i j ∧ i ∈ ordem := by
        by_cases hj0 : j = 0
        · exact Or.inl hj0
        · obtain ⟨i, hpi⟩ := hv.cover j (Nat.pos_of_ne_zero hj0) hj
          exact Or.inr ⟨i, hpi, ihj i (hv.child_gt i j hpi)
            (Nat.lt_trans (hv.child_gt i j hpi) hj)⟩
      rcases (hInv.released_iff j hj).mpr hrhs with hmem | hmem | hmem
      · rw [hp] at hmem
        cases hmem
      · rw [he] at hmem
        simp [runIds] at hmem
      · exact hmem
  intro j
  exact ⟨fun hj => hInv.lt_n j (by simp [hj]), hcomplete j⟩

theorem escalonarLoop_spec {ts : Arena} {politica : String} {np : Nat}
    (hv : ValidArena ts) (hnp : 0 < np) :
    ∀ (fuel : Nat) (st : SchedState),
      Inv ts st.dependencias st.prontos (runIds st.executando) st.ordem_execucao →
      ts.length < st.ordem_execucao.length + fuel →
      ∃ t o, escalonarLoop ts politica np fuel st = some (t, o) ∧
        o.Nodup ∧ (∀ j, j ∈ o ↔ j < ts.length) ∧
        (∀ i j, HasParent ts i j → j ∈ o → ∃ o1 o2, o = o1 ++ j :: o2 ∧ i ∈ o1) := by
  intro fuel
  induction fuel with
  | zero =>
    intro st hInv hbound
    have := inv_ordem_length_le hInv
    exact absurd hbound (by omega)
  | succ fuel ih =>
    intro st hInv hbound
    rw [escalonarLoop]
    cases hstep : iterStep ts politica np st with
    | inl r =>
      obtain ⟨hr, hempty⟩ := iterStep_inl hstep
      obtain ⟨hp_nil, he_nil⟩ := hempty hnp
      subst hr
      refine ⟨st.tempo_total, st.ordem_execucao, rfl, hInv.nodup.of_append_right,
        inv_complete hv hInv hp_nil he_nil, hInv.parent_before⟩
    | inr st2 =>
      obtain ⟨hInv2, hgrow⟩ := iterStep_inr_inv hv hInv hstep
      obtain ⟨t, o, hloop, hprops⟩ := ih st2 hInv2 (by omega)
      exact ⟨t, o, hloop, hprops⟩

theorem escalonar_ids {ts : Arena} {np : Nat} {politica : String}
    (hv : ValidArena ts) (hnp : 0 < np) :
    ∃ t o, escalonarLoop ts politica np (ts.length + 1)
        ⟨initDeps ts, initProntos ts (initDeps ts), [], [], 0⟩ = some (t, o) ∧
      o.Nodup ∧ (∀ j, j ∈ o ↔ j < ts.length) ∧
      (∀ i j, HasParent ts i j → j ∈ o → ∃ o1 o2, o = o1 ++ j :: o2 ∧ i ∈ o1) := by
  apply escalonarLoop_spec hv hnp (ts.length + 1)
    ⟨initDeps ts, initProntos ts (initDeps ts), [], [], 0⟩ (inv_initial hv)
  simp

/-! ## The single-processor case -/

theorem minRestante_singleton (t : Nat) (x : Int) : minRestante [(t, x)] = x := rfl

theorem processa_single (ts : Arena) (t : Nat) (x : Int) (deps : List Int)
    (p o : List Nat) :
    processaConcluidas ts [(t, x)] deps p o =
      ((liberaFilhos deps p (childrenOf ts t)).1,
        (liberaFilhos deps p (childrenOf ts t)).2, o ++ [t]) := by
  simp only [processaConcluidas]

theorem sumTimes_append (ts : Arena) (a b : List Nat) :
    sumTimes ts (a ++ b) = sumTimes ts a + sumTimes ts b := by
  simp [sumTimes]

theorem aloca_step (ts : Arena) (np : Nat) (t : Nat) (rest : List Nat)
    (e : List (Nat × Int)) (h : e.length < np) :
    aloca ts np (t :: rest) e = aloca ts np rest (e ++ [(t, timeOf ts t)]) := by
  rw [aloca.eq_def, if_pos h]

theorem aloca_full (ts : Arena) (np : Nat) (p : List Nat) (e : List (Nat × Int))
    (h : ¬ e.length < np) : aloca ts np p e = (p, e) := by
  rw [aloca.eq_def, if_neg h]

theorem escalonarLoop_np1 {ts : Arena} {politica : String} (hv : ValidArena ts) :
    ∀ (fuel : Nat) (st : SchedState),
      Inv ts st.dependencias st.prontos (runIds st.executando) st.ordem_execucao →
      ts.length < st.ordem_execucao.length + fuel →
      st.executando = [] →
      st.tempo_total = sumTimes ts st.ordem_execucao →
      ∃ o, escalonarLoop ts politica 1 fuel st = some (sumTimes ts o, o) ∧
        (∀ j, j ∈ o ↔ j < ts.length) ∧ o.Nodup := by
  intro fuel
  induction fuel with
  | zero =>
    intro st hInv hbound _ _
    have := inv_ordem_length_le hInv
    exact absurd hbound (by omega)
  | succ fuel ih =>
    intro st hInv hbound hexec htempo
    by_cases hpr : st.prontos = []
    · have hstep : iterStep ts politica 1 st = .inl (st.tempo_total, st.ordem_execucao) := by
        simp only [iterStep]
        rw [if_pos ⟨List.isEmpty_iff.mpr hpr, List.isEmpty_iff.mpr hexec⟩]
      rw [escalonarLoop, hstep]
      exact ⟨st.ordem_execucao, by rw [htempo],
        inv_complete hv hInv hpr hexec, hInv.nodup.of_append_right⟩
    · have hsortperm := stableSort_perm (leKey ts (reverseFlag politica)) st.prontos
      have hne : sortProntos ts politica st.prontos ≠ [] := by
        intro h
        rw [sortProntos] at h
        rw [h] at hsortperm
        exact hpr (List.perm_nil.mp hsortperm.symm)
      obtain ⟨t0, rest0, hsp_eq⟩ := List.exists_cons_of_ne_nil hne
      have haloca : aloca ts 1 (sortProntos ts politica st.prontos) [] =
          (rest0, [(t0, timeOf ts t0)]) := by
        rw [hsp_eq, aloca_step ts 1 t0 rest0 [] (by simp), List.nil_append,
          aloca_full ts 1 rest0 [(t0, timeOf ts t0)] (by simp)]
      have hstep : iterStep ts politica 1 st = .inr
          ⟨(liberaFilhos st.dependencias rest0 (childrenOf ts t0)).1,
            (liberaFilhos st.dependencias rest0 (childrenOf ts t0)).2, [],
            st.ordem_execucao ++ [t0], st.tempo_total + timeOf ts t0⟩ := by
        have h1 : ¬(st.prontos.isEmpty ∧ st.executando.isEmpty) := by
          intro hcontra
          exact hpr (List.isEmpty_iff.mp hcontra.1)
        simp only [iterStep]
        rw [if_neg h1, hexec, haloca]
        dsimp only
        rw [if_neg (by simp)]
        rw [minRestante_singleton]
        have he3 : [((t0 : Nat), timeOf ts t0)].map
            (fun q => (q.1, q.2 - timeOf ts t0)) = [(t0, 0)] := by
          simp
        rw [he3]
        have hconc : [((t0 : Nat), (0 : Int))].filter (fun q => q.2 == 0) = [(t0, 0)] := rfl
        have he4 : [((t0 : Nat), (0 : Int))].filter (fun q => decide (0 < q.2)) = [] := rfl
        rw [hconc, he4, processa_single]
      obtain ⟨hInv2, _⟩ := iterStep_inr_inv hv hInv hstep
      have htempo2 : st.tempo_total + timeOf ts t0 =
          sumTimes ts (st.ordem_execucao ++ [t0]) := by
        rw [htempo, sumTimes_append]
        simp [sumTimes]
      obtain ⟨o, hloop, hrest⟩ := ih
        ⟨(liberaFilhos st.dependencias rest0 (childrenOf ts t0)).1,
          (liberaFilhos st.dependencias rest0 (childrenOf ts t0)).2, [],
          st.ordem_execucao ++ [t0], st.tempo_total + timeOf ts t0⟩
        hInv2 (by simp; omega) rfl htempo2
      rw [escalonarLoop, hstep]
      exact ⟨o, hloop, hrest⟩

/-! ## Claim theorems: the scheduling engine -/

theorem range_map_nameOf (ts : Arena) :
    (List.range ts.length).map (nameOf ts) = ts.map Task.task_name := by
  apply List.ext_getElem
  · simp
  · intro k h1 h2
    simp only [List.getElem_map, List.getElem_range]
    rw [nameOf, List.getD_eq_getElem _ _ (by simpa using h2)]

theorem range_map_timeOf (ts : Arena) :
    (List.range ts.length).map (timeOf ts) = ts.map Task.task_time := by
  apply List.ext_getElem
  · simp
  · intro k h1 h2
    simp only [List.getElem_map, List.getElem_range]
    rw [timeOf, List.getD_eq_getElem _ _ (by simpa using h2)]

/-- C8: for every valid finite out-tree, with `processor_count ≥ 1` and all
durations non-negative (zero durations included), the scheduling loop
terminates: the fuelled model of the `while` loop returns within
`tasks + 1` iterations, so `escalonar` produces a result instead of running
out of fuel. -/
theorem c8_escalonar_terminates (ts : Arena) (num_proc : Nat) (politica : String)
    (hv : ValidArena ts) (hnp : 1 ≤ num_proc)
    (hdur : ∀ t ∈ ts, 0 ≤ t.task_time) :
    (escalonar ts num_proc politica).isSome = true := by
  obtain ⟨t, o, hloop, _⟩ := @escalonar_ids ts num_proc politica hv hnp
  simp only [escalonar]
  rw [hloop]
  rfl

/-- Witness for C8 at the spec's worked example. -/
theorem c8_escalonar_terminates_witness :
    (escalonar arenaEnunciado 2 "MAX").isSome = true :=
  c8_escalonar_terminates arenaEnunciado 2 "MAX"
    (validArenaCheck_sound arenaEnunciado (by decide)) (by decide) (by decide)

/-- C2: for every valid finite out-tree (the spec's data model makes task
names unique node identities) with `processor_count ≥ 1` and non-negative
durations, under either policy `escalonar` returns an order containing the
name of every node exactly once, in which every node's name appears at a
later position than its parent's name. -/
theorem c2_escalonar_completeness (ts : Arena) (num_proc : Nat) (politica : String)
    (hv : ValidArena ts) (hnp : 1 ≤ num_proc)
    (hdur : ∀ t ∈ ts, 0 ≤ t.task_time)
    (hnames : (ts.map Task.task_name).Nodup) :
    ∃ total order, escalonar ts num_proc politica = some (total, order) ∧
      order.length = ts.length ∧
      (∀ j, j < ts.length → order.count (nameOf ts j) = 1) ∧
      (∀ i j, HasParent ts i j →
        ∃ pre post, order = pre ++ nameOf ts j :: post ∧ nameOf ts i ∈ pre) := by
  obtain ⟨t, o, hloop, hnodup, hmem, hpb⟩ := @escalonar_ids ts num_proc politica hv hnp
  have hperm : o.Perm (List.range ts.length) := by
    rw [List.perm_ext_iff_of_nodup hnodup (List.nodup_range _)]
    intro a
    rw [List.mem_range]
    exact hmem a
  refine ⟨t, o.map (nameOf ts), ?_, ?_, ?_, ?_⟩
  · simp only [escalonar]
    rw [hloop]
    rfl
  · rw [List.length_map, hperm.length_eq, List.length_range]
  · intro j hj
    rw [(hperm.map (nameOf ts)).count_eq, range_map_nameOf]
    apply List.count_eq_one_of_mem hnames
    rw [List.mem_map]
    refine ⟨ts.getD j default, ?_, rfl⟩
    rw [List.getD_eq_getElem _ _ hj]
    exact List.getElem_mem _
  · intro i j hpij
    have hjo : j ∈ o := (hmem j).mpr (hv.child_lt i j hpij)
    obtain ⟨o1, o2, ho, hio1⟩ := hpb i j hpij hjo
    refine ⟨o1.map (nameOf ts), o2.map (nameOf ts), ?_, List.mem_map_of_mem _ hio1⟩
    rw [ho]
    simp

/-- Witness for C2 at the spec's worked example. -/
theorem c2_escalonar_completeness_witness :
    (escalonar arenaEnunciado 2 "MIN").isSome = true := by
  obtain ⟨t, o, he, _⟩ := c2_escalonar_completeness arenaEnunciado 2 "MIN"
    (validArenaCheck_sound arenaEnunciado (by decide)) (by decide) (by decide) (by decide)
  rw [he]
  rfl

/-- C4: on the tree `A_5 -> B_3`, `A_5 -> C_2` with 2 processors and the
ASCENDING (`MIN`) policy, `escalonar` returns total time 8 and order
`["A", "C", "B"]`. -/
theorem c4_escalonar_cenario :
    escalonar arenaEnunciado 2 "MIN" = some (8, ["A", "C", "B"]) := by
  rfl

/-- C5: with a single processor, both policies return the same total time,
namely the sum of all task durations. -/
theorem c5_single_processor_equivalence (ts : Arena) (hv : ValidArena ts) :
    (escalonar ts 1 "MIN").map Prod.fst = (escalonar ts 1 "MAX").map Prod.fst ∧
      (escalonar ts 1 "MIN").map Prod.fst = some ((ts.map Task.task_time).sum) := by
  have key : ∀ politica : String,
      (escalonar ts 1 politica).map Prod.fst = some ((ts.map Task.task_time).sum) := by
    intro politica
    obtain ⟨o, hloop, hmem, hnodup⟩ := @escalonarLoop_np1 ts politica hv
      (ts.length + 1) ⟨initDeps ts, initProntos ts (initDeps ts), [], [], 0⟩
      (inv_initial hv) (by simp) rfl (by simp [sumTimes])
    have hperm : o.Perm (List.range ts.length) := by
      rw [List.perm_ext_iff_of_nodup hnodup (List.nodup_range _)]
      intro a
      rw [List.mem_range]
      exact hmem a
    have hsum : sumTimes ts o = (ts.map Task.task_time).sum := by
      rw [sumTimes, (hperm.map (timeOf ts)).sum_eq, range_map_timeOf]
    simp only [escalonar]
    rw [hloop]
    simp [hsum]
  exact ⟨by rw [key "MIN", key "MAX"], key "MIN"⟩

/-- Witness for C5 at the spec's worked example. -/
theorem c5_single_processor_equivalence_witness :
    (escalonar arenaEnunciado 1 "MIN").map Prod.fst = some 10 := by
  have h := c5_single_processor_equivalence arenaEnunciado
    (validArenaCheck_sound arenaEnunciado (by decide))
  rw [h.2]
  rfl

/-- C6: the running collection never exceeds `processor_count` tasks: the
admission loop keeps the bound, and each full iteration of the main loop
preserves it (the time advance and completion steps only shrink the
collection). -/
theorem c6_capacity_bound (ts : Arena) (politica : String) (num_proc : Nat) :
    (∀ (prontos : List Nat) (executando : List (Nat × Int)),
        executando.length ≤ num_proc →
        (aloca ts num_proc prontos executando).2.length ≤ num_proc) ∧
      (∀ st st2 : SchedState, st.executando.length ≤ num_proc →
        iterStep ts politica num_proc st = .inr st2 →
        st2.executando.length ≤ num_proc) := by
  refine ⟨aloca_length ts num_proc, ?_⟩
  intro st st2 hlen hstep
  simp only [iterStep] at hstep
  split at hstep
  · exact Sum.noConfusion hstep
  · split at hstep
    · exact Sum.noConfusion hstep
    · injection hstep with h2
      subst h2
      have h1 := aloca_length ts num_proc (sortProntos ts politica st.prontos)
        st.executando hlen
      refine le_trans (le_trans (List.length_filter_le _ _) ?_) h1
      exact le_of_eq (List.length_map _ _)

/-- Witness for C6 at a concrete admission call and a concrete iteration. -/
theorem c6_capacity_bound_witness :
    (aloca arenaEnunciado 2 [1, 2] []).2.length ≤ 2 :=
  (c6_capacity_bound arenaEnunciado "MIN" 2).1 [1, 2] [] (by decide)

/-! ## Claim theorems: the parser -/

theorem splitUnderscore_ne_nil : ∀ l : List Char, splitUnderscore l ≠ [] := by
  intro l
  induction l with
  | nil => simp [splitUnderscore]
  | cons c rest ih =>
    simp only [splitUnderscore]
    cases hsp : splitUnderscore rest with
    | nil => exact absurd hsp ih
    | cons s ss =>
      by_cases hc : c = '_' <;> simp [hc]

theorem splitUnderscore_cons_eq (c : Char) (rest s : List Char) (ss : List (List Char))
    (hsp : splitUnderscore rest = s :: ss) :
    splitUnderscore (c :: rest) = if c = '_' then [] :: s :: ss else (c :: s) :: ss := by
  simp only [splitUnderscore, hsp]

theorem splitUnderscore_spec : ∀ l : List Char,
    unsplitUnder (splitUnderscore l) = l ∧ ∀ p ∈ splitUnderscore l, '_' ∉ p := by
  intro l
  induction l with
  | nil =>
    refine ⟨rfl, ?_⟩
    intro p hp
    simp only [splitUnderscore, List.mem_singleton] at hp
    simp [hp]
  | cons c rest ih =>
    obtain ⟨ih1, ih2⟩ := ih
    cases hsp : splitUnderscore rest with
    | nil => exact absurd hsp (splitUnderscore_ne_nil rest)
    | cons s ss =>
      rw [splitUnderscore_cons_eq c rest s ss hsp]
      rw [hsp] at ih1 ih2
      by_cases hc : c = '_'
      · rw [if_pos hc]
        subst hc
        constructor
        · simp only [unsplitUnder, List.nil_append]
          rw [ih1]
        · intro p hp
          rcases List.mem_cons.mp hp with rfl | hp2
          · simp
          · exact ih2 p hp2
      · rw [if_neg hc]
        constructor
        · cases ss with
          | nil =>
            simp only [unsplitUnder] at ih1 ⊢
            rw [ih1]
          | cons s2 ss2 =>
            simp only [unsplitUnder] at ih1 ⊢
            rw [List.cons_append, ih1]
        · intro p hp
          rcases List.mem_cons.mp hp with rfl | hp2
          · intro hmem
            rcases List.mem_cons.mp hmem with h1 | h2
            · exact hc h1.symm
            · exact ih2 s (List.mem_cons_self _ _) h2
          · exact ih2 p (List.mem_cons_of_mem _ hp2)

theorem splitUnderscore_first (pre rest : List Char) (hpre : '_' ∉ pre) :
    splitUnderscore (pre ++ '_' :: rest) = pre :: splitUnderscore rest := by
  induction pre with
  | nil =>
    cases hsp : splitUnderscore rest with
    | nil => exact absurd hsp (splitUnderscore_ne_nil rest)
    | cons s ss =>
      rw [List.nil_append, splitUnderscore_cons_eq '_' rest s ss hsp, if_pos rfl]
  | cons c pre2 ih =>
    have hc : c ≠ '_' := fun h => hpre (h ▸ List.mem_cons_self _ _)
    have hpre2 : '_' ∉ pre2 := fun h => hpre (List.mem_cons_of_mem _ h)
    cases hsp : splitUnderscore rest with
    | nil => exact absurd hsp (splitUnderscore_ne_nil rest)
    | cons s ss =>
      have h2 : splitUnderscore (pre2 ++ '_' :: rest) = pre2 :: s :: ss := by
        rw [ih hpre2, hsp]
      rw [List.cons_append, splitUnderscore_cons_eq c _ _ _ h2, if_neg hc]

/-- C7: `parse_task` reads the token as name, first underscore, duration:
whenever it succeeds, the returned name is the underscore-free text before
the first underscore and the duration is Python `int` of the text after it;
and whenever the text after the first underscore does not parse as an
integer, `parse_task` fails (so loading fails with the `ValueError` the
spec calls `ParseError`). -/
theorem c7_parse_task_first_underscore :
    (∀ (raw : String) (nm : String) (d : Int), parse_task raw = some (nm, d) →
      '_' ∉ nm.toList ∧ ∃ rest, raw.toList = nm.toList ++ '_' :: rest ∧
        pyIntChars rest = some d) ∧
    (∀ (raw : String) (pre rest : List Char), raw.toList = pre ++ '_' :: rest →
      '_' ∉ pre → pyIntChars rest = none → parse_task raw = none) := by
  constructor
  · intro raw nm d h
    unfold parse_task at h
    split at h
    · rename_i nome tempo heq
      split at h
      · rename_i v hv
        injection h with h2
        injection h2 with h3 h4
        subst h3
        subst h4
        obtain ⟨hjoin, hmem⟩ := splitUnderscore_spec raw.toList
        rw [heq] at hjoin hmem
        simp only [unsplitUnder] at hjoin
        exact ⟨hmem nome (by simp), tempo, hjoin.symm, hv⟩
      · exact Option.noConfusion h
    · exact Option.noConfusion h
  · intro raw pre rest hsplit hpre hnone
    unfold parse_task
    rw [hsplit, splitUnderscore_first pre rest hpre]
    cases hsp : splitUnderscore rest with
    | nil => exact absurd hsp (splitUnderscore_ne_nil rest)
    | cons s ss =>
      cases ss with
      | nil =>
        have hs : s = rest := by
          have h5 := (splitUnderscore_spec rest).1
          rw [hsp] at h5
          simpa [unsplitUnder] using h5
        rw [hs]
        simp [hnone]
      | cons s2 ss2 => rfl

/-- Witness for C7: a token whose text after the first underscore is not an
integer makes the parse fail. -/
theorem c7_parse_task_first_underscore_witness : parse_task "A_x" = none :=
  c7_parse_task_first_underscore.2 "A_x" ['A'] ['x'] rfl (by decide) rfl

/-! ## Claim theorems: policy dispatch -/

theorem char_ofNat_valid_toNat {n : Nat} (h : n < 55296) : (Char.ofNat n).toNat = n := by
  unfold Char.ofNat
  rw [dif_pos]
  · rfl
  · exact Or.inl (by omega)

theorem toUpper_eq_iff (c lo up : Char) (hlo : lo.toNat = up.toNat + 32)
    (h97 : 97 ≤ lo.toNat) (h122 : lo.toNat ≤ 122) (h90 : up.toNat ≤ 90) :
    c.toUpper = up ↔ (c = lo ∨ c = up) := by
  simp only [Char.toUpper]
  by_cases h : c.toNat ≥ 97 ∧ c.toNat ≤ 122
  · rw [if_pos h]
    constructor
    · intro he
      left
      have hv2 : (Char.ofNat (c.toNat - 32)).toNat = c.toNat - 32 :=
        char_ofNat_valid_toNat (by omega)
      rw [he] at hv2
      have hc : c.toNat = lo.toNat := by omega
      have h3 := Char.ofNat_toNat c
      rw [hc] at h3
      rw [← h3, Char.ofNat_toNat]
    · rintro (h5 | h5)
      · rw [h5]
        have h4 : lo.toNat - 32 = up.toNat := by omega
        rw [h4, Char.ofNat_toNat]
      · rw [h5] at h
        exact absurd h.1 (by omega)
  · rw [if_neg h]
    constructor
    · intro he
      exact Or.inr he
    · rintro (h5 | h5)
      · rw [h5] at h
        exact absurd ⟨h97, h122⟩ h
      · exact h5

theorem toUpper_eq_M (c : Char) : c.toUpper = 'M' ↔ (c = 'm' ∨ c = 'M') :=
  toUpper_eq_iff c 'm' 'M' (by decide) (by decide) (by decide) (by decide)

theorem toUpper_eq_A (c : Char) : c.toUpper = 'A' ↔ (c = 'a' ∨ c = 'A') :=
  toUpper_eq_iff c 'a' 'A' (by decide) (by decide) (by decide) (by decide)

theorem toUpper_eq_X (c : Char) : c.toUpper = 'X' ↔ (c = 'x' ∨ c = 'X') :=
  toUpper_eq_iff c 'x' 'X' (by decide) (by decide) (by decide) (by decide)

/-- C9: the ready queue is sorted descending exactly when the policy string
equals `MAX` case-insensitively, every other string sorts ascending, and a
freshly constructed scheduler carries policy `"MAX"`, so a bare `escalonar`
call after construction runs the descending policy. -/
theorem c9_policy_dispatch :
    (∀ s : String, reverseFlag s = true ↔ matchesMAX s) ∧
      (∀ (fp : String) (r : Arena) (np : Nat), (mkScheduler fp r np).politica = "MAX") ∧
      (∀ (ts : Arena) (s : String) (l : List Nat), reverseFlag s = true →
        (sortProntos ts s l).Pairwise (fun a b => timeOf ts b ≤ timeOf ts a)) ∧
      (∀ (ts : Arena) (s : String) (l : List Nat), reverseFlag s = false →
        (sortProntos ts s l).Pairwise (fun a b => timeOf ts a ≤ timeOf ts b)) ∧
      (∀ (fp : String) (r : Arena) (np : Nat),
        reverseFlag (mkScheduler fp r np).politica = true) := by
  refine ⟨?_, fun _ _ _ => rfl, ?_, ?_,
    fun fp r np => by show reverseFlag "MAX" = true; decide⟩
  · intro s
    unfold reverseFlag pyUpper
    rw [beq_iff_eq, String.ext_iff]
    show s.toList.map Char.toUpper = ['M', 'A', 'X'] ↔ matchesMAX s
    constructor
    · intro h
      have hlen : s.toList.length = 3 := by
        have := congrArg List.length h
        simpa using this
      obtain ⟨c1, c2, c3, hd⟩ := List.length_eq_three.mp hlen
      rw [hd] at h
      simp only [List.map_cons, List.map_nil, List.cons.injEq, and_true] at h
      obtain ⟨h1, h2, h3⟩ := h
      exact ⟨c1, c2, c3, hd, (toUpper_eq_M c1).mp h1, (toUpper_eq_A c2).mp h2,
        (toUpper_eq_X c3).mp h3⟩
    · rintro ⟨c1, c2, c3, hd, h1, h2, h3⟩
      rw [hd]
      rcases h1 with rfl | rfl <;> rcases h2 with rfl | rfl <;>
        rcases h3 with rfl | rfl <;> rfl
  · intro ts s l hrev
    unfold sortProntos
    rw [hrev]
    have hkey : ∀ a b, leKey ts true a b = decide (timeOf ts b ≤ timeOf ts a) :=
      fun _ _ => rfl
    have htrans : ∀ a b c, leKey ts true a b = true → leKey ts true b c = true →
        leKey ts true a c = true := by
      intro a b c h1 h2
      simp only [hkey, decide_eq_true_eq] at h1 h2 ⊢
      exact le_trans h2 h1
    have htotal : ∀ a b, leKey ts true a b = true ∨ leKey ts true b a = true := by
      intro a b
      simp only [hkey, decide_eq_true_eq]
      exact le_total (timeOf ts b) (timeOf ts a)
    refine (stableSort_pairwise htrans htotal l).imp ?_
    intro a b hab
    simp only [hkey, decide_eq_true_eq] at hab
    exact hab
  · intro ts s l hrev
    unfold sortProntos
    rw [hrev]
    have hkey : ∀ a b, leKey ts false a b = decide (timeOf ts a ≤ timeOf ts b) :=
      fun _ _ => rfl
    have htrans : ∀ a b c, leKey ts false a b = true → leKey ts false b c = true →
        leKey ts false a c = true := by
      intro a b c h1 h2
      simp only [hkey, decide_eq_true_eq] at h1 h2 ⊢
      exact le_trans h1 h2
    have htotal : ∀ a b, leKey ts false a b = true ∨ leKey ts false b a = true := by
      intro a b
      simp only [hkey, decide_eq_true_eq]
      exact le_total (timeOf ts a) (timeOf ts b)
    refine (stableSort_pairwise htrans htotal l).imp ?_
    intro a b hab
    simp only [hkey, decide_eq_true_eq] at hab
    exact hab

/-- Witness for C9: a mixed-case `mAx` matches, and an unrecognized policy
string (`MIN`) sorts ascending. -/
theorem c9_policy_dispatch_witness :
    matchesMAX "mAx" ∧
      (sortProntos arenaEnunciado "MIN" [1, 2]).Pairwise
        (fun a b => timeOf arenaEnunciado a ≤ timeOf arenaEnunciado b) :=
  ⟨(c9_policy_dispatch.1 "mAx").mp (by decide),
    c9_policy_dispatch.2.2.2.1 arenaEnunciado "MIN" [1, 2] (by decide)⟩

/-! ## Claim theorems: loader dispatch and root determination -/

/-- C10: a stripped line containing `#` anywhere is handled as a
processor-count line (integer parsed from the text after its first 7
characters) even when it also contains `->`; an edge is processed only when
the line contains `->` and no `#`. -/
theorem c10_hash_line_dispatch :
    (∀ (st : LoadState) (linha : String),
      ((pyStrip linha).toList.contains '#') = true →
      (∃ p, pyIntChars ((pyStrip linha).toList.drop 7) = some p ∧
          processLine st linha = .ok { st with proc := p }) ∨
        (pyIntChars ((pyStrip linha).toList.drop 7) = none ∧
          processLine st linha = .error .valueError)) ∧
    (∀ (st st2 : LoadState) (linha : String),
      processLine st linha = .ok st2 → st2.nodes ≠ st.nodes →
      2 ≤ (splitArrow (pyStrip linha).toList).length ∧
        ((pyStrip linha).toList.contains '#') = false) := by
  constructor
  · intro st linha hhash
    simp only [processLine]
    rw [if_pos hhash]
    cases hp : pyIntChars ((pyStrip linha).toList.drop 7) with
    | some p => exact Or.inl ⟨p, rfl, rfl⟩
    | none => exact Or.inr ⟨rfl, rfl⟩
  · intro st st2 linha hok hne
    by_cases hhash : ((pyStrip linha).toList.contains '#') = true
    · exfalso
      simp only [processLine] at hok
      rw [if_pos hhash] at hok
      cases hp : pyIntChars ((pyStrip linha).toList.drop 7) with
      | some p =>
        rw [hp] at hok
        injection hok with h2
        exact hne (by rw [← h2])
      | none =>
        rw [hp] at hok
        exact Except.noConfusion hok
    · refine ⟨?_, by simpa using hhash⟩
      by_contra harrow
      simp only [processLine] at hok
      rw [if_neg hhash, if_neg harrow] at hok
      injection hok with h2
      exact hne (by rw [← h2])

/-- Witness for C10: a line with both `#` and `->` is handled as a
processor-count line; here `linha[7:]` is `"x"`, so loading fails on
`int("x")` instead of parsing the edge. -/
theorem c10_hash_line_dispatch_witness :
    processLine initialLoadState "# 4 -> x" = Except.error PyError.valueError := by
  rcases c10_hash_line_dispatch.1 initialLoadState "# 4 -> x" (by decide) with
    ⟨p, hp, _⟩ | ⟨_, herr⟩
  · rw [show pyIntChars (((pyStrip "# 4 -> x")).toList.drop 7) = none from rfl] at hp
    exact Option.noConfusion hp
  · exact herr

/-- C1: on an input whose root-candidate set has two elements the loader
silently returns a tree rooted at an arbitrarily picked candidate, and on
an input whose candidate set is empty it fails with `IndexError`; in
neither case does it raise the `MalformedTreeError` the spec requires (the
source defines no such error). -/
theorem c1_load_tree_no_malformed_error :
    (load_tree ["A_1 -> B_2", "C_3 -> D_4"]).toOption.isSome = true ∧
      load_tree ["A_1 -> B_2", "B_2 -> A_1"] = Except.error PyError.indexError := by
  exact ⟨rfl, rfl⟩

/-! ## Claim theorems: the policy comparator -/

/-- C3 counterexample: `compara_politicas` is not side-effect free — on a
scheduler whose policy field is `"MIN"` it returns a post-state whose
policy field is `"MAX"`. -/
theorem c3_compara_politicas_counterexample :
    ((compara_politicas ⟨"tasks.txt", arenaUma, 1, "MIN"⟩).map
        (fun r => r.1.politica)) = some "MAX" ∧ ("MIN" : String) ≠ "MAX" :=
  ⟨rfl, by decide⟩

/-- C3 amended: `compara_politicas` leaves the tree, the processor count
and the file path unchanged but sets the policy field to `"MAX"`; its
report depends only on the tree, the processor count and the file path
(the `file` field echoes the path), never on the incoming policy. -/
theorem c3_compara_politicas_amended :
    ∀ (s sch : Scheduler) (info : Info),
      compara_politicas s = some (sch, info) →
      sch.file_path = s.file_path ∧ sch.raiz = s.raiz ∧ sch.num_proc = s.num_proc ∧
        sch.politica = "MAX" ∧
        ∀ (s2 sch2 : Scheduler) (info2 : Info),
          compara_politicas s2 = some (sch2, info2) →
          s2.raiz = s.raiz → s2.num_proc = s.num_proc → s2.file_path = s.file_path →
          info2 = info := by
  intro s sch info h
  unfold compara_politicas at h
  cases hmin : escalonar s.raiz s.num_proc "MIN" with
  | none =>
    rw [hmin] at h
    exact Option.noConfusion h
  | some minR =>
    cases hmax : escalonar s.raiz s.num_proc "MAX" with
    | none =>
      rw [hmin, hmax] at h
      exact Option.noConfusion h
    | some maxR =>
      rw [hmin, hmax] at h
      injection h with h2
      injection h2 with h3 h4
      subst h3
      subst h4
      refine ⟨rfl, rfl, rfl, rfl, ?_⟩
      intro s2 sch2 info2 h5 hraiz hnp hfp
      unfold compara_politicas at h5
      rw [hraiz, hnp, hfp, hmin, hmax] at h5
      injection h5 with h6
      injection h6 with h7 h8
      exact h8.symm

/-- Witness for C3's amended statement on a one-task scheduler. -/
theorem c3_compara_politicas_amended_witness :
    ((compara_politicas ⟨"t", arenaUma, 1, "MIN"⟩).map
      (fun r => r.1.file_path)) = some "t" := by
  cases hc : compara_politicas ⟨"t", arenaUma, 1, "MIN"⟩ with
  | none =>
    have hs : (compara_politicas ⟨"t", arenaUma, 1, "MIN"⟩).isSome = true := rfl
    rw [hc] at hs
    simp at hs
  | some r =>
    obtain ⟨hfp, _⟩ := c3_compara_politicas_amended ⟨"t", arenaUma, 1, "MIN"⟩
      r.1 r.2 (by rw [hc])
    show some r.1.file_path = some "t"
    rw [hfp]

end TaskScheduler
